import Mathlib

/-!
Verification of the real-FFT module (`src/real.rs`) of the `dft` crate:
the orchestrating `transform` for `[f64]`, the butterfly recombination
`compose`, and the spectrum expansion `unpack`.

Real numbers are modelled by `ℚ` (the claims under study are structural:
which expressions are computed, which indices are accessed), complex
numbers by a pair structure `c64` mirroring `num::Complex<f64>`.
Panics (failed asserts, out-of-bounds indexing, `usize` underflow) are
modelled by `Except Err`.
-/

/-- Error outcomes: `SizeMismatch` models the panic of the
`assert!(n == plan.size)` in `transform`, `NotPowerOfTwo` the panic of
`assert!(n.is_power_of_two())` in `unpack`, and `OOB` every indexing
panic (out-of-bounds slice access, including the one reached through a
`usize` subtraction underflow). -/
inductive Err where
  | SizeMismatch
  | NotPowerOfTwo
  | OOB
deriving DecidableEq

/-- Complex number with rational components, mirroring `c64 = num::Complex<f64>`. -/
structure c64 where
  re : ℚ
  im : ℚ
deriving DecidableEq

namespace c64

/-- Componentwise addition, as `Complex::add`. -/
def add (x y : c64) : c64 := ⟨x.re + y.re, x.im + y.im⟩

/-- Componentwise subtraction, as `Complex::sub`. -/
def sub (x y : c64) : c64 := ⟨x.re - y.re, x.im - y.im⟩

/-- Complex multiplication, as `Complex::mul`. -/
def mul (x y : c64) : c64 := ⟨x.re * y.re - x.im * y.im, x.re * y.im + x.im * y.re⟩

/-- Complex conjugation, as `Complex::conj`. -/
def conj (x : c64) : c64 := ⟨x.re, -x.im⟩

/-- Scaling by a real scalar, as `Complex::scale`. -/
def scale (x : c64) (t : ℚ) : c64 := ⟨x.re * t, x.im * t⟩

instance : Add c64 := ⟨add⟩
instance : Sub c64 := ⟨sub⟩
instance : Mul c64 := ⟨mul⟩

end c64

/-- Checked read `l[i]`: Rust slice indexing panics out of bounds. -/
def getE {α : Type} (l : List α) (i : Nat) : Except Err α :=
  match l[i]? with
  | some v => .ok v
  | none => .error .OOB

/-- Checked write `l[i] = v`: Rust slice indexing panics out of bounds. -/
def setE {α : Type} (l : List α) (i : Nat) (v : α) : Except Err (List α) :=
  if i < l.length then .ok (l.set i v) else .error .OOB

/-- One iteration of the butterfly loop of `compose` (`src/real.rs`):
`j = n - i`, `part1 = data[i] + data[j].conj()`,
`part2 = data[i] - data[j].conj()`,
`product = c64!(0.0, sign) * factors[m - j] * part2`,
`data[i] = (part1 + product).scale(0.5)`,
`data[j] = (part1 - product).scale(0.5).conj()`.
The source computes `m - j` in `usize`; when `j > m` that subtraction
underflows, which panics in debug builds and in release builds wraps to
an index far beyond any allocatable slice, panicking on the access, so
both are modelled by the `OOB` error. -/
def composeStep (factors : List c64) (sign : ℚ) (n i : Nat) (data : List c64) :
    Except Err (List c64) := do
  let j := n - i
  let di ← getE data i
  let dj ← getE data j
  let part1 := di + dj.conj
  let part2 := di - dj.conj
  if j ≤ factors.length then do
    let f ← getE factors (factors.length - j)
    let product := c64.mk 0 sign * f * part2
    let data1 ← setE data i ((part1 + product).scale (1/2))
    setE data1 j (((part1 - product).scale (1/2)).conj)
  else .error .OOB

/-- The loop `for i in 1..(n / 2)` of `compose`, starting at `i` and
running `k` iterations. -/
def composeLoop (factors : List c64) (sign : ℚ) (n : Nat) :
    Nat → Nat → List c64 → Except Err (List c64)
  | _, 0, data => .ok data
  | i, k+1, data => do
      let d ← composeStep factors sign n i data
      composeLoop factors sign n (i+1) k d

/-- `compose(data, n, factors, inverse)` from `src/real.rs`:
`data[0] = c64!(data[0].re + data[0].im, data[0].re - data[0].im)`,
halved when `inverse`; `sign = 1.0` if `inverse` else `-1.0`; the
butterfly loop for `i in 1..(n/2)`; finally
`data[n / 2] = data[n / 2].conj()`. -/
def compose (data : List c64) (n : Nat) (factors : List c64) (inverse : Bool) :
    Except Err (List c64) := do
  let d0 ← getE data 0
  let v0 := c64.mk (d0.re + d0.im) (d0.re - d0.im)
  let v0 := if inverse then v0.scale (1/2) else v0
  let data1 ← setE data 0 v0
  let sign : ℚ := if inverse then 1 else -1
  let data2 ← composeLoop factors sign n 1 (n / 2 - 1) data1
  let dm ← getE data2 (n / 2)
  setE data2 (n / 2) dm.conj

/-- Transform direction, as `dft::Operation`. -/
inductive Operation where
  | Forward
  | Backward
  | Inverse
deriving DecidableEq

/-- Execution plan, as `dft::Plan` (external collaborator, consumed read-only). -/
structure Plan where
  size : Nat
  operation : Operation
  factors : List c64

/-- The reinterpretation
`from_raw_parts_mut(self.as_mut_ptr() as *mut c64, n / 2)`: the first
`2 * (n / 2)` reals viewed as `n / 2` complex pairs (real part first). -/
def toComplex (l : List ℚ) : List c64 :=
  (List.range (l.length / 2)).map (fun i => c64.mk (l.getD (2 * i) 0) (l.getD (2 * i + 1) 0))

/-- Flattening a complex list back to the underlying reals. -/
def fromComplex : List c64 → List ℚ
  | [] => []
  | z :: rest => z.re :: z.im :: fromComplex rest

/-- Writing the mutated complex half-buffer back through the aliasing
view: the first `2 * (length / 2)` reals come from the complex data, a
trailing odd real (never covered by the view) is unchanged. -/
def writeBack (buffer : List ℚ) (d : List c64) : List ℚ :=
  fromComplex d ++ buffer.drop (2 * (buffer.length / 2))

/-- `<[f64] as Transform>::transform` from `src/real.rs`. The in-place
complex FFT engine (`<[c64] as Transform>::transform`, a separate module
outside this one, assumed total on its inputs) is abstracted as the
parameter `ct`. -/
def transform (ct : Plan → List c64 → List c64) (plan : Plan) (buffer : List ℚ) :
    Except Err (List ℚ) :=
  let n := buffer.length
  if n = plan.size then
    let data := toComplex buffer
    match plan.operation with
    | .Forward =>
        (compose (ct plan data) (n / 2) plan.factors false).map (writeBack buffer)
    | .Backward | .Inverse =>
        (compose data (n / 2) plan.factors true).map (fun d => writeBack buffer (ct plan d))
  else .error .SizeMismatch

/-- `usize::is_power_of_two`, by its documented semantics: `n` is a
power of two (the bound `k < n + 1` only makes the search finite; every
exponent of a power of two `n` satisfies it because `2 ^ k > k`). -/
def isPow2 (n : Nat) : Bool :=
  decide (∃ k, k < n + 1 ∧ n = 2 ^ k)

/-- First loop of `unpack`: `for i in 1..(n / 2) { cdata[i] = c64!(data[2 * i], data[2 * i + 1]) }`,
starting at `i`, running `k` iterations. -/
def unpackLoop1 (data : List ℚ) : Nat → Nat → List c64 → Except Err (List c64)
  | _, 0, cd => .ok cd
  | i, k+1, cd => do
      let a ← getE data (2 * i)
      let b ← getE data (2 * i + 1)
      let cd1 ← setE cd i (c64.mk a b)
      unpackLoop1 data (i+1) k cd1

/-- Second loop of `unpack`: `for i in (n / 2 + 1)..n { cdata[i] = cdata[n - i].conj() }`,
starting at `i`, running `k` iterations. -/
def unpackLoop2 (n : Nat) : Nat → Nat → List c64 → Except Err (List c64)
  | _, 0, cd => .ok cd
  | i, k+1, cd => do
      let v ← getE cd (n - i)
      let cd1 ← setE cd i v.conj
      unpackLoop2 n (i+1) k cd1

/-- `unpack(data)` from `src/real.rs`. The source allocates an
uninitialized `Vec` of length `n` (`with_capacity` + `set_len`); it is
modelled by a placeholder-filled list — on every path that returns
successfully each of the `n` entries has been written before being
read, so the placeholder is unobservable. -/
def unpack (data : List ℚ) : Except Err (List c64) :=
  let n := data.length
  if isPow2 n then do
    let cdata := List.replicate n (c64.mk 0 0)
    let d0 ← getE data 0
    let cdata1 ← setE cdata 0 (c64.mk d0 0)
    let cdata2 ← unpackLoop1 data 1 (n / 2 - 1) cdata1
    let d1 ← getE data 1
    let cdata3 ← setE cdata2 (n / 2) (c64.mk d1 0)
    unpackLoop2 n (n / 2 + 1) (n - (n / 2 + 1)) cdata3
  else .error .NotPowerOfTwo

/-- The value the spec assigns to `fullSpectrum[i]` for `i ≤ n / 2`
(modelled from the spec's words for `unpack`, first half): index 0 is
`(data[0], 0)`, indices in `[1, n/2)` are `(data[2i], data[2i+1])`,
index `n/2` is `(data[1], 0)`. -/
def unpackFirst (data : List ℚ) (n i : Nat) : Option c64 :=
  if i = 0 then (data[0]?).map (fun a => c64.mk a 0)
  else if i < n / 2 then
    match data[2 * i]?, data[2 * i + 1]? with
    | some a, some b => some (c64.mk a b)
    | _, _ => none
  else if i = n / 2 then (data[1]?).map (fun a => c64.mk a 0)
  else none

/-- The value the spec assigns to `fullSpectrum[i]` (modelled from the
spec's words for `unpack`): the first half directly, the second half by
Hermitian symmetry `conjugate(fullSpectrum[n - i])`. -/
def unpackSpecAt (data : List ℚ) (n i : Nat) : Option c64 :=
  if i ≤ n / 2 then unpackFirst data n i
  else if i < n then (unpackFirst data n (n - i)).map c64.conj
  else none

/-- The value written to `data[i]` by a butterfly step with sign `s`
when the pair read was `(di, dj)` and the twiddle factor `f`. -/
def butterflyLo (sign : ℚ) (di dj f : c64) : c64 :=
  (((di + dj.conj) + c64.mk 0 sign * f * (di - dj.conj))).scale (1/2)

/-- The value written to `data[j]` by a butterfly step with sign `s`
when the pair read was `(di, dj)` and the twiddle factor `f`. -/
def butterflyHi (sign : ℚ) (di dj f : c64) : c64 :=
  ((((di + dj.conj) - c64.mk 0 sign * f * (di - dj.conj))).scale (1/2)).conj

/-- The DC/Nyquist separation value written to `data[0]` by `compose`. -/
def dcVal (inverse : Bool) (d0 : c64) : c64 :=
  let v := c64.mk (d0.re + d0.im) (d0.re - d0.im)
  if inverse then v.scale (1/2) else v

/-- The sign used by the butterfly loop of `compose`. -/
def composeSign (inverse : Bool) : ℚ := if inverse then 1 else -1

/-! ### Concrete data used by witnesses and counterexamples -/

/-- A length-4 complex half-buffer. -/
def exData : List c64 := [c64.mk 1 2, c64.mk 3 4, c64.mk 5 6, c64.mk 7 8]

/-- A factors list of length `n - 1 = 3` (the shape the crate's plans
actually provide for a half-length of 4). -/
def exFactors : List c64 := [c64.mk 1 0, c64.mk 0 1, c64.mk 2 1]

/-- The result of `compose exData 4 exFactors false`. -/
def exOut : List c64 := [c64.mk 3 (-1), c64.mk 11 0, c64.mk 5 (-6), c64.mk (-1) 4]

/-- A factors list of length `4 / 2 = 2`, the length the spec prescribes
for a half-length of 4. -/
def exFactorsSpecLen : List c64 := [c64.mk 1 0, c64.mk 0 1]

/-- A length-4 complex half-buffer for the C2 counterexample. -/
def exData2 : List c64 := [c64.mk 1 1, c64.mk 2 2, c64.mk 3 3, c64.mk 4 4]

/-- An identity stand-in for the external complex FFT engine, used only
to instantiate witnesses. -/
def ctId : Plan → List c64 → List c64 := fun _ d => d

/-- A Forward plan of size 4 whose factors have the length the crate
provides (`size - 1`). -/
def exPlan : Plan := ⟨4, .Forward, exFactors⟩

/-- The packed spectrum [1,2,3,4] of the repository's own test. -/
def exPacked4 : List ℚ := [1, 2, 3, 4]

/-- The expected unpacked spectrum for [1,2,3,4]. -/
def exUnpacked4 : List c64 := [c64.mk 1 0, c64.mk 3 4, c64.mk 2 0, c64.mk 3 (-4)]

/-- The packed spectrum [1,...,8] of the repository's own test. -/
def exPacked8 : List ℚ := [1, 2, 3, 4, 5, 6, 7, 8]

/-- The expected unpacked spectrum for [1,...,8]. -/
def exUnpacked8 : List c64 :=
  [c64.mk 1 0, c64.mk 3 4, c64.mk 5 6, c64.mk 7 8,
   c64.mk 2 0, c64.mk 7 (-8), c64.mk 5 (-6), c64.mk 3 (-4)]

/-- A plan of odd size 3, for exercising the absence of further size
validation in `transform`. -/
def exPlanOdd : Plan := ⟨3, .Forward, []⟩

/-- An odd-length buffer matching `exPlanOdd`. -/
def exBufferOdd : List ℚ := [1, 2, 3]

/-! ### Basic lemmas -/

theorem c64.conj_conj (x : c64) : x.conj.conj = x := by
  cases x; simp [c64.conj]

theorem isPow2_iff {n : Nat} : isPow2 n = true ↔ ∃ k, n = 2 ^ k := by
  unfold isPow2
  simp only [decide_eq_true_eq]
  constructor
  · rintro ⟨k, _, hk⟩; exact ⟨k, hk⟩
  · rintro ⟨k, hk⟩
    exact ⟨k, by have := Nat.lt_two_pow k; omega, hk⟩

theorem isPow2_even {n : Nat} (h : isPow2 n = true) (h2 : 2 ≤ n) : n % 2 = 0 := by
  obtain ⟨k, rfl⟩ := isPow2_iff.mp h
  cases k with
  | zero => omega
  | succ k => simp [Nat.pow_succ, Nat.mul_mod_left]

/-! ### Plumbing lemmas for the `Except` monad and checked accesses -/

theorem ebind_ok {α β : Type} {x : Except Err α} {f : α → Except Err β} {b : β} :
    (x >>= f) = .ok b ↔ ∃ a, x = .ok a ∧ f a = .ok b := by
  cases x <;> simp [Bind.bind, Except.bind]

theorem ebind_error {α β : Type} {x : Except Err α} {f : α → Except Err β} {e : Err} :
    (x >>= f) = .error e ↔ x = .error e ∨ ∃ a, x = .ok a ∧ f a = .error e := by
  cases x <;> simp [Bind.bind, Except.bind]

theorem emap_ok {α β : Type} {x : Except Err α} {f : α → β} {b : β} :
    x.map f = .ok b ↔ ∃ a, x = .ok a ∧ f a = b := by
  cases x <;> simp [Except.map]

theorem emap_error {α β : Type} {x : Except Err α} {f : α → β} {e : Err} :
    x.map f = .error e ↔ x = .error e := by
  cases x <;> simp [Except.map]

theorem getE_ok_iff {α : Type} {l : List α} {i : Nat} {v : α} :
    getE l i = .ok v ↔ l[i]? = some v := by
  unfold getE
  cases h : l[i]? <;> simp

theorem getE_error_iff {α : Type} {l : List α} {i : Nat} {e : Err} :
    getE l i = .error e ↔ l[i]? = none ∧ e = .OOB := by
  unfold getE
  cases h : l[i]? <;> simp [eq_comm]

theorem setE_ok_iff {α : Type} {l l' : List α} {i : Nat} {v : α} :
    setE l i v = .ok l' ↔ i < l.length ∧ l' = l.set i v := by
  unfold setE
  split <;> simp_all [eq_comm]

theorem setE_error_iff {α : Type} {l : List α} {i : Nat} {v : α} {e : Err} :
    setE l i v = .error e ↔ l.length ≤ i ∧ e = .OOB := by
  unfold setE
  split
  case isTrue h => simp [Nat.not_le.mpr h]
  case isFalse h => simp [Nat.not_lt.mp h, eq_comm]

/-! ### Shape of one butterfly step -/

theorem composeStep_ok {F : List c64} {s : ℚ} {n i : Nat} {d d' : List c64}
    (h : composeStep F s n i d = .ok d') :
    ∃ di dj f, d[i]? = some di ∧ d[n - i]? = some dj ∧
      n - i ≤ F.length ∧ F[F.length - (n - i)]? = some f ∧
      d' = (d.set i (butterflyLo s di dj f)).set (n - i) (butterflyHi s di dj f) := by
  unfold composeStep at h
  simp only [ebind_ok] at h
  obtain ⟨di, hdi, h⟩ := h
  obtain ⟨dj, hdj, h⟩ := h
  rw [getE_ok_iff] at hdi hdj
  split at h
  case isFalse => exact absurd h (by simp)
  case isTrue hle =>
    simp only [ebind_ok] at h
    obtain ⟨f, hf, h⟩ := h
    obtain ⟨d1, hd1, h⟩ := h
    rw [getE_ok_iff] at hf
    rw [setE_ok_iff] at hd1 h
    refine ⟨di, dj, f, hdi, hdj, hle, hf, ?_⟩
    rw [h.2, hd1.2]
    rfl

theorem composeStep_error {F : List c64} {s : ℚ} {n i : Nat} {d : List c64} {e : Err}
    (h : composeStep F s n i d = .error e) : e = .OOB := by
  unfold composeStep at h
  simp only [ebind_error] at h
  rcases h with h | ⟨a, _, h⟩
  · exact (getE_error_iff.mp h).2
  rcases h with h | ⟨b, _, h⟩
  · exact (getE_error_iff.mp h).2
  split at h
  · simp only [ebind_error] at h
    rcases h with h | ⟨f, _, h⟩
    · exact (getE_error_iff.mp h).2
    rcases h with h | ⟨d1, _, h⟩
    · exact (setE_error_iff.mp h).2
    · exact (setE_error_iff.mp h).2
  · exact (Except.error.injEq _ _).mp h.symm

/-- A butterfly step succeeds as soon as all four accesses are in
bounds, and it preserves the length. -/
theorem composeStep_total {F : List c64} {s : ℚ} {n i : Nat} {d : List c64}
    (hi : i < d.length) (hj : n - i < d.length)
    (hm1 : n - i ≤ F.length) (hm2 : F.length - (n - i) < F.length) :
    ∃ d', composeStep F s n i d = .ok d' ∧ d'.length = d.length := by
  have hdi : getE d i = .ok d[i] := getE_ok_iff.mpr (List.getElem?_eq_getElem hi)
  have hdj : getE d (n - i) = .ok d[n - i] := getE_ok_iff.mpr (List.getElem?_eq_getElem hj)
  have hf : getE F (F.length - (n - i)) = .ok F[F.length - (n - i)] :=
    getE_ok_iff.mpr (List.getElem?_eq_getElem hm2)
  refine ⟨(d.set i (butterflyLo s d[i] d[n - i] F[F.length - (n - i)])).set (n - i)
      (butterflyHi s d[i] d[n - i] F[F.length - (n - i)]), ?_, by simp⟩
  have hs1 : setE d i
      ((d[i] + d[n - i].conj + c64.mk 0 s * F[F.length - (n - i)] * (d[i] - d[n - i].conj)).scale (1/2)) =
      .ok (d.set i (butterflyLo s d[i] d[n - i] F[F.length - (n - i)])) :=
    setE_ok_iff.mpr ⟨hi, rfl⟩
  unfold composeStep
  simp only [hdi, hdj, hf, if_pos hm1, Bind.bind, Except.bind, hs1]
  exact setE_ok_iff.mpr ⟨by simpa using hj, rfl⟩

/-! ### Invariants of the butterfly loop -/

theorem composeLoop_length {F : List c64} {s : ℚ} {n : Nat} :
    ∀ {k i : Nat} {d d' : List c64}, composeLoop F s n i k d = .ok d' → d'.length = d.length := by
  intro k
  induction k with
  | zero => intro i d d' h; cases h; rfl
  | succ k ih =>
    intro i d d' h
    simp only [composeLoop, ebind_ok] at h
    obtain ⟨d1, h1, h2⟩ := h
    obtain ⟨_, _, _, _, _, _, _, rfl⟩ := composeStep_ok h1
    simpa using ih h2

theorem composeLoop_untouched {F : List c64} {s : ℚ} {n : Nat} :
    ∀ {k i : Nat} {d d' : List c64}, composeLoop F s n i k d = .ok d' →
      ∀ p : Nat, (∀ t, i ≤ t → t < i + k → p ≠ t ∧ p ≠ n - t) → d'[p]? = d[p]? := by
  intro k
  induction k with
  | zero => intro i d d' h p _; cases h; rfl
  | succ k ih =>
    intro i d d' h p hp
    simp only [composeLoop, ebind_ok] at h
    obtain ⟨d1, h1, h2⟩ := h
    obtain ⟨di, dj, f, _, _, _, _, rfl⟩ := composeStep_ok h1
    have hpi := hp i (Nat.le_refl i) (by omega)
    rw [ih h2 p (fun t ht1 ht2 => hp t (by omega) (by omega))]
    rw [List.getElem?_set_ne (fun hh => hpi.2 hh.symm), List.getElem?_set_ne (fun hh => hpi.1 hh.symm)]

/-- Each loop iteration writes the butterfly formulas, computed from the
values the state held at indices `i` and `n - i` when the loop reached
step `i`; since all iterations touch pairwise disjoint index pairs,
those are the values of the state the loop started from. -/
theorem composeLoop_get {F : List c64} {s : ℚ} {n : Nat} :
    ∀ {k i : Nat} {d d' : List c64}, composeLoop F s n i k d = .ok d' →
      1 ≤ i → i + k ≤ n / 2 →
      ∀ t, i ≤ t → t < i + k →
        ∃ di dj f, d[t]? = some di ∧ d[n - t]? = some dj ∧
          F[F.length - (n - t)]? = some f ∧
          d'[t]? = some (butterflyLo s di dj f) ∧
          d'[n - t]? = some (butterflyHi s di dj f) := by
  intro k
  induction k with
  | zero => intro i d d' _ _ _ t ht1 ht2; omega
  | succ k ih =>
    intro i d d' h hi1 hik t ht1 ht2
    simp only [composeLoop, ebind_ok] at h
    obtain ⟨d1, h1, h2⟩ := h
    obtain ⟨di, dj, f, hdi, hdj, hle, hf, rfl⟩ := composeStep_ok h1
    have hlen : i < d.length := by
      by_contra hc
      rw [List.getElem?_eq_none (by omega)] at hdi
      cases hdi
    have hjlen : n - i < d.length := by
      by_contra hc
      rw [List.getElem?_eq_none (by omega)] at hdj
      cases hdj
    rcases Nat.eq_or_lt_of_le ht1 with rfl | htgt
    · -- the step at `t = i` wrote both entries; later iterations touch
      -- neither `i` nor `n - i`
      refine ⟨di, dj, f, hdi, hdj, hf, ?_, ?_⟩
      · rw [composeLoop_untouched h2 i (fun u hu1 hu2 => by constructor <;> omega)]
        rw [List.getElem?_set_ne (by omega)]
        exact List.getElem?_set_eq_of_lt _ hlen
      · rw [composeLoop_untouched h2 (n - i) (fun u hu1 hu2 => by constructor <;> omega)]
        exact List.getElem?_set_eq_of_lt _ (by simpa using hjlen)
    · -- the step at `i` touches neither `t` nor `n - t`
      have hmain := ih h2 (by omega) (by omega) t (by omega) (by omega)
      obtain ⟨di', dj', f', hdi', hdj', hf', hlo, hhi⟩ := hmain
      rw [List.getElem?_set_ne (by omega), List.getElem?_set_ne (by omega)] at hdi'
      rw [List.getElem?_set_ne (by omega), List.getElem?_set_ne (by omega)] at hdj'
      exact ⟨di', dj', f', hdi', hdj', hf', hlo, hhi⟩

theorem composeLoop_error {F : List c64} {s : ℚ} {n : Nat} :
    ∀ {k i : Nat} {d : List c64} {e : Err}, composeLoop F s n i k d = .error e → e = .OOB := by
  intro k
  induction k with
  | zero => intro i d e h; cases h
  | succ k ih =>
    intro i d e h
    simp only [composeLoop, ebind_error] at h
    rcases h with h | ⟨d1, _, h⟩
    · exact composeStep_error h
    · exact ih h

theorem composeLoop_total {F : List c64} {s : ℚ} {n : Nat} :
    ∀ {k i : Nat} {d : List c64}, d.length = n → 1 ≤ i → i + k ≤ n / 2 →
      n - 1 ≤ F.length →
      ∃ d', composeLoop F s n i k d = .ok d' ∧ d'.length = n := by
  intro k
  induction k with
  | zero => intro i d hd _ _ _; exact ⟨d, rfl, hd⟩
  | succ k ih =>
    intro i d hd hi1 hik hF
    have hFpos : 1 ≤ F.length := by omega
    obtain ⟨d1, h1, hlen1⟩ := composeStep_total (F := F) (s := s) (n := n) (i := i) (d := d)
      (by omega) (by omega) (by omega) (by omega)
    obtain ⟨d', h2, hlen'⟩ := ih (i := i + 1) (d := d1) (by omega) (by omega) (by omega) hF
    exact ⟨d', by simp only [composeLoop, ebind_ok]; exact ⟨d1, h1, h2⟩, hlen'⟩

/-! ### Shape and totality of `compose` -/

theorem compose_ok_shape {data F out : List c64} {n : Nat} {inverse : Bool}
    (h : compose data n F inverse = .ok out) :
    ∃ d0 data2 dm, data[0]? = some d0 ∧ 0 < data.length ∧
      composeLoop F (composeSign inverse) n 1 (n / 2 - 1) (data.set 0 (dcVal inverse d0)) = .ok data2 ∧
      data2[n / 2]? = some dm ∧ n / 2 < data2.length ∧
      out = data2.set (n / 2) dm.conj := by
  simp only [compose, ebind_ok] at h
  obtain ⟨d0, hd0, data1, hset, data2, hloop, dm, hdm, hfin⟩ := h
  rw [getE_ok_iff] at hd0
  rw [setE_ok_iff] at hset
  rw [getE_ok_iff] at hdm
  rw [setE_ok_iff] at hfin
  obtain ⟨h0lt, rfl⟩ := hset
  exact ⟨d0, data2, dm, hd0, h0lt, hloop, hdm, hfin.1, hfin.2⟩

theorem compose_length {data F out : List c64} {n : Nat} {inverse : Bool}
    (h : compose data n F inverse = .ok out) : out.length = data.length := by
  obtain ⟨d0, data2, dm, _, _, hloop, _, _, rfl⟩ := compose_ok_shape h
  have := composeLoop_length hloop
  simp_all

theorem compose_error {data F : List c64} {n : Nat} {inverse : Bool} {e : Err}
    (h : compose data n F inverse = .error e) : e = .OOB := by
  simp only [compose, ebind_error] at h
  rcases h with h | ⟨d0, _, h⟩
  · exact (getE_error_iff.mp h).2
  rcases h with h | ⟨data1, _, h⟩
  · exact (setE_error_iff.mp h).2
  rcases h with h | ⟨data2, _, h⟩
  · exact composeLoop_error h
  rcases h with h | ⟨dm, _, h⟩
  · exact (getE_error_iff.mp h).2
  · exact (setE_error_iff.mp h).2

theorem compose_total {data F : List c64} {n : Nat} {inverse : Bool}
    (hd : data.length = n) (hn : 1 ≤ n) (hF : n - 1 ≤ F.length) :
    ∃ out, compose data n F inverse = .ok out ∧ out.length = n := by
  have h0 : 0 < data.length := by omega
  have hd0 : getE data 0 = .ok data[0] := getE_ok_iff.mpr (List.getElem?_eq_getElem h0)
  have hset : setE data 0 (dcVal inverse data[0]) = .ok (data.set 0 (dcVal inverse data[0])) :=
    setE_ok_iff.mpr ⟨h0, rfl⟩
  have hlen1 : (data.set 0 (dcVal inverse data[0])).length = n := by simpa using hd
  obtain ⟨data2, hloop, hlen2⟩ :
      ∃ d2, composeLoop F (composeSign inverse) n 1 (n / 2 - 1)
        (data.set 0 (dcVal inverse data[0])) = .ok d2 ∧ d2.length = n := by
    by_cases h2 : 2 ≤ n
    · exact composeLoop_total hlen1 (by omega) (by omega) hF
    · have : n = 1 := by omega
      subst this
      exact ⟨_, rfl, hlen1⟩
  have hmid : n / 2 < data2.length := by omega
  have hdm : getE data2 (n / 2) = .ok data2[n / 2] :=
    getE_ok_iff.mpr (List.getElem?_eq_getElem hmid)
  refine ⟨data2.set (n / 2) data2[n / 2].conj, ?_, by simpa using hlen2⟩
  simp only [compose, ebind_ok]
  exact ⟨data[0], hd0, _, hset, data2, hloop, data2[n / 2], hdm,
    setE_ok_iff.mpr ⟨hmid, rfl⟩⟩

/-! ### Claims about `compose` -/

/-- Claim C1: for every call to `compose(halfBuffer, halfLen, factors, inverse)`
with `halfLen` even (that returns), the butterfly loop runs for every
`i` from 1 to `halfLen/2 - 1` inclusive with `j = halfLen - i`, setting
`halfBuffer[i] = 0.5 * (part1 + product)` and
`halfBuffer[j] = conjugate(0.5 * (part1 - product))`, where
`part1 = halfBuffer[i] + conjugate(halfBuffer[j])`,
`part2 = halfBuffer[i] - conjugate(halfBuffer[j])`,
`product = (0, sign) * factors[M - j] * part2` with `M` the factors
length, and `sign = -1` when not inverse, `+1` when inverse. -/
theorem compose_butterfly_formulas (data factors out : List c64) (n : Nat) (inverse : Bool)
    (hn : n % 2 = 0) (h : compose data n factors inverse = .ok out)
    (i : Nat) (hi1 : 1 ≤ i) (hi2 : i < n / 2) :
    ∃ di dj f, data[i]? = some di ∧ data[n - i]? = some dj ∧
      factors[factors.length - (n - i)]? = some f ∧
      out[i]? = some ((di + dj.conj + c64.mk 0 (if inverse then 1 else -1) * f *
        (di - dj.conj)).scale (1/2)) ∧
      out[n - i]? = some (((di + dj.conj - c64.mk 0 (if inverse then 1 else -1) * f *
        (di - dj.conj)).scale (1/2)).conj) := by
  obtain ⟨d0, data2, dm, hd0, h0lt, hloop, hdm, hmidlt, rfl⟩ := compose_ok_shape h
  obtain ⟨di, dj, f, hdi, hdj, hf, hlo, hhi⟩ :=
    composeLoop_get hloop (by omega) (by omega) i (by omega) (by omega)
  rw [List.getElem?_set_ne (by omega)] at hdi
  rw [List.getElem?_set_ne (by omega)] at hdj
  refine ⟨di, dj, f, hdi, hdj, hf, ?_, ?_⟩
  · rw [List.getElem?_set_ne (by omega)]
    exact hlo
  · rw [List.getElem?_set_ne (by omega)]
    exact hhi

/-- Claim C2 counterexample: a call to `compose` with `halfLen = 4` and
a factors sequence of exactly `M = halfLen/2 = 2` entries (the length
the spec prescribes) panics on the very first butterfly twiddle access
(`m - j` = `2 - 3` underflows), so it is not in-bounds. -/
theorem compose_specfactors_oob :
    exFactorsSpecLen.length = 4 / 2 ∧
    compose exData2 4 exFactorsSpecLen false = .error .OOB :=
  ⟨rfl, by rfl⟩

/-- Claim C2 (amended): the factors list the crate's plans actually
supply has `size - 1 = 2 * halfLen - 1` entries, not `halfLen / 2`;
every twiddle access `factors[m - j]` of the butterfly loop (and every
other access of `compose`) is in-bounds as soon as the factors sequence
has at least `halfLen - 1` entries, whereas with exactly `halfLen / 2`
entries the first loop iteration already fails (see the
counterexample). -/
theorem compose_factors_inbounds (data factors : List c64) (n : Nat) (inverse : Bool)
    (hd : data.length = n) (hn : 1 ≤ n) (hF : n - 1 ≤ factors.length) :
    ∃ out, compose data n factors inverse = .ok out := by
  obtain ⟨out, h, _⟩ := compose_total hd hn hF
  exact ⟨out, h⟩

/-- Claim C4: in every (returning) call to `compose`, with `d0` the
initial value of `halfBuffer[0]`, element 0 is set to
`(re: d0.re + d0.im, im: d0.re - d0.im)`, that result is scaled by 0.5
exactly when `inverse` is true, and the midpoint element
`halfBuffer[halfLen/2]` is replaced by its conjugate (its original
value conjugated — no other step touches it). -/
theorem compose_dc_nyquist (data factors out : List c64) (n : Nat) (inverse : Bool)
    (hn : 2 ≤ n) (h : compose data n factors inverse = .ok out) :
    (∀ d0, data[0]? = some d0 →
      out[0]? = some (if inverse
        then (c64.mk (d0.re + d0.im) (d0.re - d0.im)).scale (1/2)
        else c64.mk (d0.re + d0.im) (d0.re - d0.im))) ∧
    out[n / 2]? = (data[n / 2]?).map c64.conj := by
  obtain ⟨d0, data2, dm, hd0, h0lt, hloop, hdm, hmidlt, rfl⟩ := compose_ok_shape h
  have huntouched0 : data2[0]? = (data.set 0 (dcVal inverse d0))[0]? :=
    composeLoop_untouched hloop 0 (fun t ht1 ht2 => by constructor <;> omega)
  have huntouchedMid : data2[n / 2]? = (data.set 0 (dcVal inverse d0))[n / 2]? :=
    composeLoop_untouched hloop (n / 2) (fun t ht1 ht2 => by constructor <;> omega)
  constructor
  · intro d0' hd0'
    rw [hd0'] at hd0
    injection hd0 with hd0
    subst hd0
    rw [List.getElem?_set_ne (by omega), huntouched0,
      List.getElem?_set_eq_of_lt _ h0lt]
    rfl
  · rw [List.getElem?_set_eq_of_lt _ hmidlt]
    rw [huntouchedMid, List.getElem?_set_ne (by omega)] at hdm
    rw [hdm]
    rfl

/-! ### The aliasing view and `transform` -/

theorem toComplex_length (l : List ℚ) : (toComplex l).length = l.length / 2 := by
  simp [toComplex]

theorem toComplex_get {l : List ℚ} {i : Nat} (h : i < l.length / 2) :
    ∃ a b, l[2 * i]? = some a ∧ l[2 * i + 1]? = some b ∧
      (toComplex l)[i]? = some (c64.mk a b) := by
  have h1 : 2 * i < l.length := by omega
  have h2 : 2 * i + 1 < l.length := by omega
  refine ⟨l[2 * i], l[2 * i + 1], List.getElem?_eq_getElem h1, List.getElem?_eq_getElem h2, ?_⟩
  simp [toComplex, List.getElem?_range h, List.getElem?_eq_getElem, h1, h2]

theorem fromComplex_length (d : List c64) : (fromComplex d).length = 2 * d.length := by
  induction d with
  | nil => rfl
  | cons z rest ih => simp [fromComplex, ih]; omega

theorem writeBack_length {buffer : List ℚ} {d : List c64}
    (hd : d.length = buffer.length / 2) : (writeBack buffer d).length = buffer.length := by
  simp [writeBack, fromComplex_length, hd]
  omega

theorem transform_forward {ct : Plan → List c64 → List c64} {plan : Plan} {buffer : List ℚ}
    (h : buffer.length = plan.size) (hop : plan.operation = .Forward) :
    transform ct plan buffer =
      (compose (ct plan (toComplex buffer)) (plan.size / 2) plan.factors false).map
        (writeBack buffer) := by
  simp only [transform, hop, if_pos h, h, if_true]

theorem transform_backward {ct : Plan → List c64 → List c64} {plan : Plan} {buffer : List ℚ}
    (h : buffer.length = plan.size)
    (hop : plan.operation = .Backward ∨ plan.operation = .Inverse) :
    transform ct plan buffer =
      (compose (toComplex buffer) (plan.size / 2) plan.factors true).map
        (fun d => writeBack buffer (ct plan d)) := by
  rcases hop with hop | hop <;> simp only [transform, hop, if_pos h, h, if_true]

theorem transform_mismatch {ct : Plan → List c64 → List c64} {plan : Plan} {buffer : List ℚ}
    (h : buffer.length ≠ plan.size) :
    transform ct plan buffer = .error .SizeMismatch := by
  simp only [transform, if_neg h]

theorem transform_error {ct : Plan → List c64 → List c64} {plan : Plan} {buffer : List ℚ}
    {e : Err} (h : buffer.length = plan.size) (he : transform ct plan buffer = .error e) :
    e = .OOB := by
  cases hop : plan.operation
  case Forward =>
    rw [transform_forward h hop, emap_error] at he
    exact compose_error he
  case Backward =>
    rw [transform_backward h (Or.inl hop), emap_error] at he
    exact compose_error he
  case Inverse =>
    rw [transform_backward h (Or.inr hop), emap_error] at he
    exact compose_error he

/-! ### Claims about `transform` -/

/-- Claim C3: for every buffer with `buffer.length == plan.size`,
`transform` with `Forward` runs the complex transform on the
reinterpreted half-buffer first and then `compose` with
`inverse = false`, while with `Backward` or `Inverse` it runs `compose`
with `inverse = true` first and then the complex transform; in both
cases the effects are confined to the buffer (the result is the written
back buffer, of unchanged length — nothing else is produced). -/
theorem transform_sequencing (ct : Plan → List c64 → List c64) (plan : Plan) (buffer : List ℚ)
    (hlen : buffer.length = plan.size) (hct : ∀ p d, (ct p d).length = d.length) :
    (plan.operation = .Forward →
      transform ct plan buffer =
        (compose (ct plan (toComplex buffer)) (plan.size / 2) plan.factors false).map
          (writeBack buffer)) ∧
    ((plan.operation = .Backward ∨ plan.operation = .Inverse) →
      transform ct plan buffer =
        (compose (toComplex buffer) (plan.size / 2) plan.factors true).map
          (fun d => writeBack buffer (ct plan d))) ∧
    (∀ out, transform ct plan buffer = .ok out → out.length = buffer.length) := by
  refine ⟨fun hop => transform_forward hlen hop, fun hop => transform_backward hlen hop, ?_⟩
  intro out hout
  cases hop : plan.operation
  case Forward =>
    rw [transform_forward hlen hop, emap_ok] at hout
    obtain ⟨d, hd, rfl⟩ := hout
    have h1 := compose_length hd
    rw [hct, toComplex_length] at h1
    exact writeBack_length (by omega)
  case Backward =>
    rw [transform_backward hlen (Or.inl hop), emap_ok] at hout
    obtain ⟨d, hd, rfl⟩ := hout
    have h1 := compose_length hd
    rw [toComplex_length] at h1
    exact writeBack_length (by rw [hct]; omega)
  case Inverse =>
    rw [transform_backward hlen (Or.inr hop), emap_ok] at hout
    obtain ⟨d, hd, rfl⟩ := hout
    have h1 := compose_length hd
    rw [toComplex_length] at h1
    exact writeBack_length (by rw [hct]; omega)

/-- Claim C10: the only runtime validation performed by `transform` is
the equality check `buffer.length == plan.size`: whenever the declared
plan size equals the buffer length, `transform` can only fail with an
indexing panic (never a `SizeMismatch` and never any power-of-two
check), and the buffer is reinterpreted as `floor(length / 2)` complex
values — pairs of consecutive reals — regardless of the size being a
power of two, even, or at least 2. -/
theorem transform_only_size_check (ct : Plan → List c64 → List c64) (plan : Plan)
    (buffer : List ℚ) (h : buffer.length = plan.size) :
    (∀ e, transform ct plan buffer = .error e → e = .OOB) ∧
    (toComplex buffer).length = buffer.length / 2 ∧
    (∀ i, i < buffer.length / 2 →
      ∃ a b, buffer[2 * i]? = some a ∧ buffer[2 * i + 1]? = some b ∧
        (toComplex buffer)[i]? = some (c64.mk a b)) :=
  ⟨fun _ he => transform_error h he, toComplex_length buffer, fun _ hi => toComplex_get hi⟩

/-! ### Invariants of the two `unpack` loops -/

theorem unpackLoop1_ok {data : List ℚ} {i : Nat} {cd cd1 : List c64}
    {k : Nat} (h : unpackLoop1 data i (k+1) cd = .ok cd1) :
    ∃ a b, data[2 * i]? = some a ∧ data[2 * i + 1]? = some b ∧ i < cd.length ∧
      unpackLoop1 data (i+1) k (cd.set i (c64.mk a b)) = .ok cd1 := by
  simp only [unpackLoop1, ebind_ok] at h
  obtain ⟨a, ha, b, hb, cdx, hset, hrest⟩ := h
  rw [getE_ok_iff] at ha hb
  rw [setE_ok_iff] at hset
  obtain ⟨hlt, rfl⟩ := hset
  exact ⟨a, b, ha, hb, hlt, hrest⟩

theorem unpackLoop1_length {data : List ℚ} :
    ∀ {k i : Nat} {cd cd' : List c64}, unpackLoop1 data i k cd = .ok cd' →
      cd'.length = cd.length := by
  intro k
  induction k with
  | zero => intro i cd cd' h; cases h; rfl
  | succ k ih =>
    intro i cd cd' h
    obtain ⟨a, b, _, _, _, hrest⟩ := unpackLoop1_ok h
    simpa using ih hrest

theorem unpackLoop1_untouched {data : List ℚ} :
    ∀ {k i : Nat} {cd cd' : List c64}, unpackLoop1 data i k cd = .ok cd' →
      ∀ p : Nat, p < i ∨ i + k ≤ p → cd'[p]? = cd[p]? := by
  intro k
  induction k with
  | zero => intro i cd cd' h p _; cases h; rfl
  | succ k ih =>
    intro i cd cd' h p hp
    obtain ⟨a, b, _, _, _, hrest⟩ := unpackLoop1_ok h
    rw [ih hrest p (by omega), List.getElem?_set_ne (by omega)]

theorem unpackLoop1_get {data : List ℚ} :
    ∀ {k i : Nat} {cd cd' : List c64}, unpackLoop1 data i k cd = .ok cd' →
      ∀ t, i ≤ t → t < i + k →
        ∃ a b, data[2 * t]? = some a ∧ data[2 * t + 1]? = some b ∧
          cd'[t]? = some (c64.mk a b) := by
  intro k
  induction k with
  | zero => intro i cd cd' _ t ht1 ht2; omega
  | succ k ih =>
    intro i cd cd' h t ht1 ht2
    obtain ⟨a, b, ha, hb, hlt, hrest⟩ := unpackLoop1_ok h
    rcases Nat.eq_or_lt_of_le ht1 with rfl | htgt
    · refine ⟨a, b, ha, hb, ?_⟩
      rw [unpackLoop1_untouched hrest i (by omega)]
      exact List.getElem?_set_eq_of_lt _ (by simpa using hlt)
    · exact ih hrest t (by omega) (by omega)

theorem unpackLoop1_error {data : List ℚ} :
    ∀ {k i : Nat} {cd : List c64} {e : Err}, unpackLoop1 data i k cd = .error e →
      e = .OOB := by
  intro k
  induction k with
  | zero => intro i cd e h; cases h
  | succ k ih =>
    intro i cd e h
    simp only [unpackLoop1, ebind_error] at h
    rcases h with h | ⟨a, _, h⟩
    · exact (getE_error_iff.mp h).2
    rcases h with h | ⟨b, _, h⟩
    · exact (getE_error_iff.mp h).2
    rcases h with h | ⟨cd1, _, h⟩
    · exact (setE_error_iff.mp h).2
    · exact ih h

theorem unpackLoop1_total {data : List ℚ} :
    ∀ {k i : Nat} {cd : List c64},
      (∀ t, i ≤ t → t < i + k → 2 * t + 1 < data.length) → i + k ≤ cd.length →
      ∃ cd', unpackLoop1 data i k cd = .ok cd' ∧ cd'.length = cd.length := by
  intro k
  induction k with
  | zero => intro i cd _ _; exact ⟨cd, rfl, rfl⟩
  | succ k ih =>
    intro i cd hread hwrite
    have h1 : 2 * i < data.length := by have := hread i (by omega) (by omega); omega
    have h2 : 2 * i + 1 < data.length := hread i (by omega) (by omega)
    have hw : i < cd.length := by omega
    obtain ⟨cd', hok, hlen⟩ := @ih (i + 1) (cd.set i (c64.mk data[2 * i] data[2 * i + 1]))
      (fun t ht1 ht2 => hread t (by omega) (by omega)) (by simpa using by omega)
    refine ⟨cd', ?_, by simpa using hlen⟩
    simp only [unpackLoop1, ebind_ok]
    exact ⟨data[2 * i], getE_ok_iff.mpr (List.getElem?_eq_getElem h1),
      data[2 * i + 1], getE_ok_iff.mpr (List.getElem?_eq_getElem h2),
      _, setE_ok_iff.mpr ⟨hw, rfl⟩, hok⟩

theorem unpackLoop2_ok {n i : Nat} {cd cd1 : List c64}
    {k : Nat} (h : unpackLoop2 n i (k+1) cd = .ok cd1) :
    ∃ v, cd[n - i]? = some v ∧ i < cd.length ∧
      unpackLoop2 n (i+1) k (cd.set i v.conj) = .ok cd1 := by
  simp only [unpackLoop2, ebind_ok] at h
  obtain ⟨v, hv, cdx, hset, hrest⟩ := h
  rw [getE_ok_iff] at hv
  rw [setE_ok_iff] at hset
  obtain ⟨hlt, rfl⟩ := hset
  exact ⟨v, hv, hlt, hrest⟩

theorem unpackLoop2_length {n : Nat} :
    ∀ {k i : Nat} {cd cd' : List c64}, unpackLoop2 n i k cd = .ok cd' →
      cd'.length = cd.length := by
  intro k
  induction k with
  | zero => intro i cd cd' h; cases h; rfl
  | succ k ih =>
    intro i cd cd' h
    obtain ⟨v, _, _, hrest⟩ := unpackLoop2_ok h
    simpa using ih hrest

theorem unpackLoop2_untouched {n : Nat} :
    ∀ {k i : Nat} {cd cd' : List c64}, unpackLoop2 n i k cd = .ok cd' →
      ∀ p : Nat, p < i ∨ i + k ≤ p → cd'[p]? = cd[p]? := by
  intro k
  induction k with
  | zero => intro i cd cd' h p _; cases h; rfl
  | succ k ih =>
    intro i cd cd' h p hp
    obtain ⟨v, _, _, hrest⟩ := unpackLoop2_ok h
    rw [ih hrest p (by omega), List.getElem?_set_ne (by omega)]

/-- Each iteration of the second loop reads an index strictly below the
loop's write region, so the value read is the one the loop started
with. -/
theorem unpackLoop2_get {n : Nat} :
    ∀ {k i : Nat} {cd cd' : List c64}, unpackLoop2 n i k cd = .ok cd' →
      (∀ t, i ≤ t → t < i + k → n - t < i) →
      ∀ t, i ≤ t → t < i + k →
        ∃ v, cd[n - t]? = some v ∧ cd'[t]? = some v.conj := by
  intro k
  induction k with
  | zero => intro i cd cd' _ _ t ht1 ht2; omega
  | succ k ih =>
    intro i cd cd' h hcross t ht1 ht2
    obtain ⟨v, hv, hlt, hrest⟩ := unpackLoop2_ok h
    rcases Nat.eq_or_lt_of_le ht1 with rfl | htgt
    · refine ⟨v, hv, ?_⟩
      rw [unpackLoop2_untouched hrest i (by omega)]
      exact List.getElem?_set_eq_of_lt _ (by simpa using hlt)
    · obtain ⟨w, hw, hw'⟩ := ih hrest
        (fun u hu1 hu2 => by have := hcross u (by omega) (by omega); omega)
        t (by omega) (by omega)
      have hnt : n - t < i := hcross t (by omega) (by omega)
      rw [List.getElem?_set_ne (by omega)] at hw
      exact ⟨w, hw, hw'⟩

theorem unpackLoop2_error {n : Nat} :
    ∀ {k i : Nat} {cd : List c64} {e : Err}, unpackLoop2 n i k cd = .error e →
      e = .OOB := by
  intro k
  induction k with
  | zero => intro i cd e h; cases h
  | succ k ih =>
    intro i cd e h
    simp only [unpackLoop2, ebind_error] at h
    rcases h with h | ⟨v, _, h⟩
    · exact (getE_error_iff.mp h).2
    rcases h with h | ⟨cd1, _, h⟩
    · exact (setE_error_iff.mp h).2
    · exact ih h

theorem unpackLoop2_total {n : Nat} :
    ∀ {k i : Nat} {cd : List c64},
      (∀ t, i ≤ t → t < i + k → n - t < cd.length) → i + k ≤ cd.length →
      ∃ cd', unpackLoop2 n i k cd = .ok cd' ∧ cd'.length = cd.length := by
  intro k
  induction k with
  | zero => intro i cd _ _; exact ⟨cd, rfl, rfl⟩
  | succ k ih =>
    intro i cd hread hwrite
    have h1 : n - i < cd.length := hread i (by omega) (by omega)
    have hw : i < cd.length := by omega
    obtain ⟨cd', hok, hlen⟩ := @ih (i + 1) (cd.set i cd[n - i].conj)
      (fun t ht1 ht2 => by have := hread t (by omega) (by omega); simpa using this)
      (by simpa using by omega)
    refine ⟨cd', ?_, by simpa using hlen⟩
    simp only [unpackLoop2, ebind_ok]
    exact ⟨cd[n - i], getE_ok_iff.mpr (List.getElem?_eq_getElem h1),
      _, setE_ok_iff.mpr ⟨hw, rfl⟩, hok⟩

/-! ### Characterization of `unpack` -/

/-- Every successful run of `unpack` has a power-of-two input of even
length at least 2, preserves the length, and produces exactly the
spectrum described by `unpackSpecAt`. -/
theorem unpack_ok_core {data : List ℚ} {out : List c64} (h : unpack data = .ok out) :
    isPow2 data.length = true ∧ 2 ≤ data.length ∧ data.length % 2 = 0 ∧
    out.length = data.length ∧ ∀ i, out[i]? = unpackSpecAt data data.length i := by
  simp only [unpack] at h
  split at h
  case isFalse => cases h
  case isTrue hp =>
  simp only [ebind_ok] at h
  obtain ⟨d0, hd0, cd1, hset1, cd2, hloop1, d1, hd1, cd3, hset3, hloop2⟩ := h
  rw [getE_ok_iff] at hd0 hd1
  rw [setE_ok_iff] at hset1 hset3
  obtain ⟨h0lt, rfl⟩ := hset1
  obtain ⟨hmidlt, rfl⟩ := hset3
  have hn2 : 2 ≤ data.length := by
    by_contra hc
    rw [List.getElem?_eq_none (by omega)] at hd1
    cases hd1
  have heven := isPow2_even hp hn2
  have hlen1 : cd2.length = data.length := by
    have := unpackLoop1_length hloop1
    simpa using this
  have hmidlt' : data.length / 2 < cd2.length := by simpa using hmidlt
  have hlenout : out.length = data.length := by
    have := unpackLoop2_length hloop2
    simp [hlen1] at this
    omega
  refine ⟨hp, hn2, heven, hlenout, ?_⟩
  intro i
  rcases Nat.lt_or_ge i data.length with hin | hin
  case inr =>
    rw [List.getElem?_eq_none (by omega)]
    unfold unpackSpecAt
    rw [if_neg (by omega), if_neg (by omega)]
  case inl =>
  rcases Nat.lt_or_ge i 1 with h0 | h1
  · have hi0 : i = 0 := by omega
    subst hi0
    rw [unpackLoop2_untouched hloop2 0 (by omega)]
    rw [List.getElem?_set_ne (by omega)]
    rw [unpackLoop1_untouched hloop1 0 (by omega)]
    rw [List.getElem?_set_eq_of_lt _ h0lt]
    unfold unpackSpecAt unpackFirst
    rw [if_pos (by omega), if_pos rfl, hd0]
    rfl
  rcases Nat.lt_or_ge i (data.length / 2) with hfirst | hge
  · obtain ⟨a, b, ha, hb, hcd2⟩ := unpackLoop1_get hloop1 i (by omega) (by omega)
    rw [unpackLoop2_untouched hloop2 i (by omega)]
    rw [List.getElem?_set_ne (by omega)]
    rw [hcd2]
    unfold unpackSpecAt unpackFirst
    rw [if_pos (by omega), if_neg (by omega), if_pos hfirst, ha, hb]
  rcases Nat.eq_or_lt_of_le hge with hmid | hsecond
  · subst hmid
    rw [unpackLoop2_untouched hloop2 _ (by omega)]
    rw [List.getElem?_set_eq_of_lt _ hmidlt']
    unfold unpackSpecAt unpackFirst
    rw [if_pos (by omega), if_neg (by omega), if_neg (by omega), if_pos rfl, hd1]
    rfl
  · have hcross : ∀ t, data.length / 2 + 1 ≤ t →
        t < data.length / 2 + 1 + (data.length - (data.length / 2 + 1)) →
        data.length - t < data.length / 2 + 1 := by omega
    obtain ⟨v, hv, hout⟩ := unpackLoop2_get hloop2 hcross i (by omega) (by omega)
    rw [List.getElem?_set_ne (by omega)] at hv
    obtain ⟨a, b, ha, hb, hcd2⟩ :=
      unpackLoop1_get hloop1 (data.length - i) (by omega) (by omega)
    rw [hcd2] at hv
    injection hv with hv
    subst hv
    rw [hout]
    unfold unpackSpecAt unpackFirst
    rw [if_neg (by omega), if_pos hin, if_neg (by omega), if_pos (by omega), ha, hb]
    rfl

theorem unpack_not_pow {data : List ℚ} (hp : isPow2 data.length = false) :
    unpack data = .error .NotPowerOfTwo := by
  simp only [unpack]
  rw [if_neg (by simp [hp])]

theorem unpack_error_pow {data : List ℚ} {e : Err} (hp : isPow2 data.length = true)
    (h : unpack data = .error e) : e = .OOB := by
  simp only [unpack] at h
  rw [if_pos hp] at h
  simp only [ebind_error] at h
  rcases h with h | ⟨d0, _, h⟩
  · exact (getE_error_iff.mp h).2
  rcases h with h | ⟨cd1, _, h⟩
  · exact (setE_error_iff.mp h).2
  rcases h with h | ⟨cd2, _, h⟩
  · exact unpackLoop1_error h
  rcases h with h | ⟨d1, _, h⟩
  · exact (getE_error_iff.mp h).2
  rcases h with h | ⟨cd3, _, h⟩
  · exact (setE_error_iff.mp h).2
  · exact unpackLoop2_error h

theorem unpack_total {data : List ℚ} (hp : isPow2 data.length = true)
    (h2 : 2 ≤ data.length) : ∃ out, unpack data = .ok out := by
  have heven := isPow2_even hp h2
  have h0 : 0 < data.length := by omega
  have h1 : 1 < data.length := by omega
  have hd0 : getE data 0 = .ok data[0] := getE_ok_iff.mpr (List.getElem?_eq_getElem h0)
  have hd1 : getE data 1 = .ok data[1] := getE_ok_iff.mpr (List.getElem?_eq_getElem h1)
  have hset1 : setE (List.replicate data.length (c64.mk 0 0)) 0 (c64.mk data[0] 0) =
      .ok ((List.replicate data.length (c64.mk 0 0)).set 0 (c64.mk data[0] 0)) :=
    setE_ok_iff.mpr ⟨by simpa using h0, rfl⟩
  obtain ⟨cd2, hloop1, hlen2⟩ := @unpackLoop1_total data (data.length / 2 - 1) 1
    ((List.replicate data.length (c64.mk 0 0)).set 0 (c64.mk data[0] 0))
    (fun t ht1 ht2 => by omega) (by simp; omega)
  have hlen2' : cd2.length = data.length := by simpa using hlen2
  have hset3 : setE cd2 (data.length / 2) (c64.mk data[1] 0) =
      .ok (cd2.set (data.length / 2) (c64.mk data[1] 0)) :=
    setE_ok_iff.mpr ⟨by omega, rfl⟩
  obtain ⟨out, hloop2, _⟩ := @unpackLoop2_total data.length
    (data.length - (data.length / 2 + 1)) (data.length / 2 + 1)
    (cd2.set (data.length / 2) (c64.mk data[1] 0))
    (fun t ht1 ht2 => by simp [hlen2']; omega) (by simp [hlen2']; omega)
  refine ⟨out, ?_⟩
  simp only [unpack]
  rw [if_pos hp]
  simp only [ebind_ok]
  exact ⟨data[0], hd0, _, hset1, cd2, hloop1, data[1], hd1, _, hset3, hloop2⟩

/-! ### Claims about `unpack` -/

/-- Claim C6: for every packed spectrum accepted by `unpack`, the
result is a fresh sequence of the same length `N` with
`fullSpectrum[0] = (packed[0], 0)`,
`fullSpectrum[i] = (packed[2i], packed[2i+1])` for `i` in `[1, N/2)`,
`fullSpectrum[N/2] = (packed[1], 0)`, and
`fullSpectrum[i] = conjugate(fullSpectrum[N - i])` for `i` in
`(N/2, N)` (the content of `unpackSpecAt`); in particular the two known
vectors of the repository's test hold. -/
theorem unpack_matches_spec (data : List ℚ) (out : List c64)
    (h : unpack data = .ok out) :
    out.length = data.length ∧
    (∀ i, out[i]? = unpackSpecAt data data.length i) ∧
    unpack exPacked4 = .ok exUnpacked4 ∧
    unpack exPacked8 = .ok exUnpacked8 := by
  obtain ⟨_, _, _, hlen, hval⟩ := unpack_ok_core h
  exact ⟨hlen, hval, by rfl, by rfl⟩

/-- Claim C5: for every packed spectrum accepted by `unpack` (length a
power of two), the result satisfies
`unpack(data)[N - i] == conjugate(unpack(data)[i])` for all
`0 < i < N`, and the entries at 0 and `N/2` have zero imaginary
part. -/
theorem unpack_symmetry (data : List ℚ) (out : List c64) (h : unpack data = .ok out) :
    (∀ i, 0 < i → i < data.length →
      out[data.length - i]? = (out[i]?).map c64.conj) ∧
    (∃ a, out[0]? = some (c64.mk a 0)) ∧
    (∃ b, out[data.length / 2]? = some (c64.mk b 0)) := by
  obtain ⟨hp, hn2, heven, hlen, hval⟩ := unpack_ok_core h
  refine ⟨?_, ?_, ?_⟩
  · intro i hi1 hi2
    rw [hval, hval]
    rcases Nat.lt_trichotomy i (data.length / 2) with hlt | heq | hgt
    · unfold unpackSpecAt
      rw [if_neg (by omega), if_pos (by omega), if_pos (by omega)]
      rw [show data.length - (data.length - i) = i by omega]
    · subst heq
      rw [show data.length - data.length / 2 = data.length / 2 by omega]
      unfold unpackSpecAt unpackFirst
      rw [if_pos (le_refl _), if_neg (by omega), if_neg (by omega), if_pos rfl]
      rw [List.getElem?_eq_getElem (show 1 < data.length by omega)]
      simp [c64.conj]
    · unfold unpackSpecAt
      rw [if_pos (by omega), if_neg (by omega), if_pos (by omega)]
      cases hx : unpackFirst data data.length (data.length - i) <;>
        simp [hx, c64.conj_conj]
  · rw [hval]
    unfold unpackSpecAt unpackFirst
    rw [if_pos (by omega), if_pos rfl,
      List.getElem?_eq_getElem (show 0 < data.length by omega)]
    exact ⟨data[0], rfl⟩
  · rw [hval]
    unfold unpackSpecAt unpackFirst
    rw [if_pos (le_refl _), if_neg (by omega), if_neg (by omega), if_pos rfl,
      List.getElem?_eq_getElem (show 1 < data.length by omega)]
    exact ⟨data[1], rfl⟩

/-- Claim C7: calling `transform` with `buffer.length != plan.size`
fails with the `SizeMismatch` diagnostic (and that is the only way this
failure arises: when the lengths agree the check passes and the
operation proceeds, whatever else may happen); likewise `unpack` fails
with the power-of-two precondition diagnostic exactly when its input
length is not a power of two. -/
theorem precondition_checks (ct : Plan → List c64 → List c64) (plan : Plan)
    (buffer data : List ℚ) :
    (transform ct plan buffer = .error .SizeMismatch ↔ buffer.length ≠ plan.size) ∧
    (unpack data = .error .NotPowerOfTwo ↔ isPow2 data.length = false) := by
  constructor
  · constructor
    · intro he
      by_contra hc
      exact absurd (transform_error hc he) (by simp)
    · exact transform_mismatch
  · constructor
    · intro he
      by_cases hp : isPow2 data.length = true
      · have := unpack_error_pow hp he
        cases this
      · simpa using hp
    · intro hp
      exact unpack_not_pow hp

/-- Claim C9: `unpack` is total (no out-of-bounds access, every result
entry initialized) for every input of power-of-two length at least 2,
but the length-1 input — which passes the power-of-two check — reads
input index 1 out of bounds: `unpack` carries the unstated extra
precondition that its input have length at least 2. -/
theorem unpack_totality (data : List ℚ)
    (hp : isPow2 data.length = true) (h2 : 2 ≤ data.length) :
    (∃ out, unpack data = .ok out) ∧ (∀ x : ℚ, unpack [x] = .error .OOB) := by
  refine ⟨unpack_total hp h2, ?_⟩
  intro x
  have hex : ∃ k, k < (1:Nat) + 1 ∧ (1:Nat) = 2 ^ k := ⟨0, by omega, by norm_num⟩
  simp [unpack, isPow2, getE, setE, unpackLoop1, unpackLoop2, Bind.bind, Except.bind, hex]

/-! ### Witnesses: the claim theorems applied at concrete inputs -/

section Witnesses

attribute [local semireducible] Rat.add Rat.mul Rat.sub Rat.inv

/-- Witness for C1 at `exData`, `exFactors`, half-length 4, `i = 1`. -/
theorem compose_butterfly_formulas_witness :
    (4 % 2 = 0) ∧
    compose exData 4 exFactors false = .ok exOut ∧
    1 ≤ 1 ∧ 1 < 4 / 2 ∧
    (∃ di dj f, exData[1]? = some di ∧ exData[4 - 1]? = some dj ∧
      exFactors[exFactors.length - (4 - 1)]? = some f ∧
      exOut[1]? = some ((di + dj.conj + c64.mk 0 (if false then 1 else -1) * f *
        (di - dj.conj)).scale (1/2)) ∧
      exOut[4 - 1]? = some (((di + dj.conj - c64.mk 0 (if false then 1 else -1) * f *
        (di - dj.conj)).scale (1/2)).conj)) :=
  ⟨rfl, by rfl, le_refl 1, by decide,
    compose_butterfly_formulas exData exFactors exOut 4 false rfl (by rfl) 1
      (le_refl 1) (by decide)⟩

/-- Witness for the amended C2 at `exData` and `exFactors` (length `n - 1 = 3`). -/
theorem compose_factors_inbounds_witness :
    exData.length = 4 ∧ 1 ≤ 4 ∧ 4 - 1 ≤ exFactors.length ∧
    (∃ out, compose exData 4 exFactors false = .ok out) :=
  ⟨rfl, by decide, by decide,
    compose_factors_inbounds exData exFactors 4 false rfl (by decide) (by decide)⟩

/-- Witness for C3 at the identity engine, `exPlan` and buffer `[1,2,3,4]`. -/
theorem transform_sequencing_witness :
    ([1, 2, 3, 4] : List ℚ).length = exPlan.size ∧
    (∀ p d, (ctId p d).length = d.length) ∧
    ((exPlan.operation = .Forward →
      transform ctId exPlan [1, 2, 3, 4] =
        (compose (ctId exPlan (toComplex [1, 2, 3, 4])) (exPlan.size / 2)
          exPlan.factors false).map (writeBack [1, 2, 3, 4])) ∧
    ((exPlan.operation = .Backward ∨ exPlan.operation = .Inverse) →
      transform ctId exPlan [1, 2, 3, 4] =
        (compose (toComplex [1, 2, 3, 4]) (exPlan.size / 2) exPlan.factors true).map
          (fun d => writeBack [1, 2, 3, 4] (ctId exPlan d))) ∧
    (∀ out, transform ctId exPlan [1, 2, 3, 4] = .ok out →
      out.length = ([1, 2, 3, 4] : List ℚ).length)) :=
  ⟨rfl, fun _ _ => rfl, transform_sequencing ctId exPlan [1, 2, 3, 4] rfl (fun _ _ => rfl)⟩

/-- Witness for C4 at `exData`, `exFactors`, half-length 4. -/
theorem compose_dc_nyquist_witness :
    (2 ≤ 4) ∧ compose exData 4 exFactors false = .ok exOut ∧
    ((∀ d0, exData[0]? = some d0 →
      exOut[0]? = some (if false
        then (c64.mk (d0.re + d0.im) (d0.re - d0.im)).scale (1/2)
        else c64.mk (d0.re + d0.im) (d0.re - d0.im))) ∧
    exOut[4 / 2]? = (exData[4 / 2]?).map c64.conj) :=
  ⟨by decide, by rfl, compose_dc_nyquist exData exFactors exOut 4 false (by decide) (by rfl)⟩

/-- Witness for C5 at the packed spectrum `[1,2,3,4]`. -/
theorem unpack_symmetry_witness :
    unpack exPacked4 = .ok exUnpacked4 ∧
    ((∀ i, 0 < i → i < exPacked4.length →
      exUnpacked4[exPacked4.length - i]? = (exUnpacked4[i]?).map c64.conj) ∧
    (∃ a, exUnpacked4[0]? = some (c64.mk a 0)) ∧
    (∃ b, exUnpacked4[exPacked4.length / 2]? = some (c64.mk b 0))) :=
  ⟨by rfl, unpack_symmetry exPacked4 exUnpacked4 (by rfl)⟩

/-- Witness for C6 at the packed spectrum `[1,...,8]`. -/
theorem unpack_matches_spec_witness :
    unpack exPacked8 = .ok exUnpacked8 ∧
    (exUnpacked8.length = exPacked8.length ∧
    (∀ i, exUnpacked8[i]? = unpackSpecAt exPacked8 exPacked8.length i) ∧
    unpack exPacked4 = .ok exUnpacked4 ∧
    unpack exPacked8 = .ok exUnpacked8) :=
  ⟨by rfl, unpack_matches_spec exPacked8 exUnpacked8 (by rfl)⟩

/-- Witness for C9 at the packed spectrum `[1,2,3,4]`. -/
theorem unpack_totality_witness :
    isPow2 exPacked4.length = true ∧ 2 ≤ exPacked4.length ∧
    ((∃ out, unpack exPacked4 = .ok out) ∧ (∀ x : ℚ, unpack [x] = .error .OOB)) :=
  ⟨by rfl, by decide, unpack_totality exPacked4 (by rfl) (by decide)⟩

/-- Witness for C10 at an odd buffer length 3 (not a power of two, not
even): the size check still passes. -/
theorem transform_only_size_check_witness :
    exBufferOdd.length = exPlanOdd.size ∧
    ((∀ e, transform ctId exPlanOdd exBufferOdd = .error e → e = .OOB) ∧
    (toComplex exBufferOdd).length = exBufferOdd.length / 2 ∧
    (∀ i, i < exBufferOdd.length / 2 →
      ∃ a b, exBufferOdd[2 * i]? = some a ∧ exBufferOdd[2 * i + 1]? = some b ∧
        (toComplex exBufferOdd)[i]? = some (c64.mk a b))) :=
  ⟨rfl, transform_only_size_check ctId exPlanOdd exBufferOdd rfl⟩

end Witnesses
